import Mathlib

/-!
Shallow embedding of `onmt/Models.py` from the
Variational-Recurrent-Autoencoder-PyTorch repository, together with
theorems settling the claims about it.

Modelling conventions:
* Tensors are nested lists of rationals: a vector is `Vec`, a 2-d
  batch-major tensor is `Mat` (rows = dim 0), a 3-d tensor is `T3`.
  Token tensors are `TokMat` (integer ids, shape (time, batch)).
* Torch primitives that the source uses as opaque building blocks
  (`nn.LSTM`, `nn.LSTMCell`, the embedding lookup `word_lut`, the external
  `generator`, `nn.Dropout`, `torch.exp`, and the random draws of
  `torch.bernoulli` / `normal_`) are injected as function-valued structure
  fields or arguments; everything the source file itself computes
  (shape bookkeeping, the latent bottleneck, the decoder loop, the
  token-replacement arithmetic) is translated operation by operation.
* `view` is modelled faithfully as a reinterpretation of the contiguous
  row-major buffer (`List.join` followed by re-chunking), exactly as
  PyTorch performs it on a contiguous tensor.
* Fallible torch operations (elementwise ops on shape-incompatible
  operands raise at runtime) return `Option`.
-/

abbrev Vec := List ℚ
abbrev Mat := List Vec
abbrev T3 := List Mat
abbrev TokMat := List (List ℤ)

/-- Dot product of two vectors (the inner loop of `nn.Linear`). -/
def vdot (a b : Vec) : ℚ := (List.zipWith (· * ·) a b).sum

/-- A `nn.Linear` layer: one weight row per output feature, plus bias. -/
structure LinearL where
  weight : Mat
  bias : Vec

/-- Apply a linear layer to one feature vector. -/
def LinearL.appV (l : LinearL) (x : Vec) : Vec :=
  List.zipWith (fun wr bi => vdot wr x + bi) l.weight l.bias

/-- Apply a linear layer to a batch of feature vectors (row-major). -/
def LinearL.app (l : LinearL) (xs : Mat) : Mat := xs.map l.appV

/-- Elementwise map over a 2-d tensor. -/
def matMap (f : ℚ → ℚ) (m : Mat) : Mat := m.map (fun r => r.map f)

/-- `torch.mul` on same-shaped 2-d tensors (elementwise). -/
def matMul2 (a b : Mat) : Mat := List.zipWith (List.zipWith (· * ·)) a b

/-- `torch.add` on same-shaped 2-d tensors (elementwise). -/
def matAdd2 (a b : Mat) : Mat := List.zipWith (List.zipWith (· + ·)) a b

/-- `torch.cat((h, c), 2)`: concatenate two (rows, batch, dim) tensors
along the feature axis. -/
def cat2 (h c : T3) : T3 := List.zipWith (List.zipWith (· ++ ·)) h c

/-- `x.transpose(0, 1)` on a 3-d tensor: swap the two outer axes. -/
def transpose01 (x : T3) : T3 :=
  (List.range (x.headD []).length).map (fun b => x.map (fun mm => mm.getD b []))

/-- `x.contiguous().view(x.size(0), -1)` on a 3-d tensor: flatten each
outer row of the (already batch-major) tensor. -/
def flattenRows (x : T3) : Mat := x.map List.flatten

/-- Lines 141-142 of `NMTModel.encode`:
`torch.cat((enc_hidden[0], enc_hidden[1]), 2).transpose(0,1).contiguous()`
followed by `.view(enc_hidden.size(0), -1)`. -/
def encodeFlat (h c : T3) : Mat := flattenRows (transpose01 (cat2 h c))

/-- `nn.PReLU` with learned slope `a`: `max(0,x) + a * min(0,x)`. -/
def preluQ (a x : ℚ) : ℚ := max x 0 + a * min x 0

/-- `buf.view(L, B, K)`: reinterpret a contiguous buffer as an
(L, B, K) tensor, row-major. -/
def reshape3 (L B K : ℕ) (buf : Vec) : T3 :=
  (List.range L).map (fun l =>
    (List.range B).map (fun b => ((buf.drop ((l * B + b) * K)).take K)))

/-- `m.view(L, B, -1)` on a contiguous 2-d tensor `m`: the trailing size
is inferred from the buffer length, and the buffer is reinterpreted. -/
def view3 (L B : ℕ) (m : Mat) : T3 :=
  reshape3 L B (m.flatten.length / (L * B)) m.flatten

/-- `torch.chunk(x, 2, 2)`: split the feature axis into two chunks
(the first one ceil-sized, as torch does). -/
def chunk2 (x : T3) : T3 × T3 :=
  (x.map (fun mm => mm.map (fun v => v.take ((v.length + 1) / 2))),
   x.map (fun mm => mm.map (fun v => v.drop ((v.length + 1) / 2))))

/-- Embedding lookup of a (batch,) row of token ids. -/
def lutRow (lut : ℤ → Vec) (toks : List ℤ) : Mat := toks.map lut

/-- The `nn.LSTM` primitive of the encoder: embedded sequence in, final
`(hidden, cell)` states plus the full output sequence out. -/
abbrev RnnF := List Mat → (T3 × T3) × List Mat

/-- The options object, restricted to the fields the modelled code reads. -/
structure Opt where
  layers : ℕ
  brnn : Bool
  rnn_size : ℕ
  word_vec_size : ℕ

/-- `class Encoder` (lines 9-38). -/
structure Encoder where
  layers : ℕ
  num_directions : ℕ
  hidden_size : ℕ
  word_lut : ℤ → Vec
  rnn : RnnF

/-- `Encoder.__init__` (lines 11-23): the `assert opt.rnn_size %
self.num_directions == 0` is a construction-time failure, modelled as
`none`; on success the encoder is built with
`hidden_size = rnn_size // num_directions`. The `nn.LSTM` instance is the
injected primitive `rnn`. -/
def Encoder.build (opt : Opt) (word_lut : ℤ → Vec) (rnn : RnnF) : Option Encoder :=
  let num_directions := if opt.brnn then 2 else 1
  if opt.rnn_size % num_directions = 0 then
    some { layers := opt.layers, num_directions := num_directions,
           hidden_size := opt.rnn_size / num_directions,
           word_lut := word_lut, rnn := rnn }
  else none

/-- `Encoder.forward` (lines 30-38), plain (non-packed) branch: embed the
tokens and run the recurrent primitive. -/
def Encoder.forward (e : Encoder) (input : TokMat) : (T3 × T3) × List Mat :=
  e.rnn (input.map (lutRow e.word_lut))

/-- A single `nn.LSTMCell` primitive, batched: input (batch, size) and a
per-layer state pair to new `(h, c)`. -/
abbrev LSTMCellF := Mat → Mat × Mat → Mat × Mat

/-- `class StackedLSTM` (lines 41-66). -/
structure StackedLSTM where
  num_layers : ℕ
  dropoutF : Mat → Mat
  cells : List LSTMCellF

/-- The loop body of `StackedLSTM.forward` (lines 52-66): layer `i` reads
`(h_0[i], c_0[i])`, its output feeds the next layer, with dropout applied
between layers but not after the last one. -/
def stackedGo (dropoutF : Mat → Mat) (numLayers : ℕ) :
    List LSTMCellF → ℕ → Mat → T3 → T3 → Mat × (T3 × T3)
  | [], _, input, _, _ => (input, ([], []))
  | cell :: rest, i, input, h0, c0 =>
    let hc := cell input (h0.getD i [], c0.getD i [])
    let inp2 := if i + 1 ≠ numLayers then dropoutF hc.1 else hc.1
    let r := stackedGo dropoutF numLayers rest (i + 1) inp2 h0 c0
    (r.1, (hc.1 :: r.2.1, hc.2 :: r.2.2))

/-- `StackedLSTM.forward` (lines 52-66). -/
def StackedLSTM.forward (s : StackedLSTM) (input : Mat) (hidden : T3 × T3) :
    Mat × (T3 × T3) :=
  stackedGo s.dropoutF s.num_layers s.cells 0 input hidden.1 hidden.2

/-- `class Decoder` (lines 69-111). `generator` is the external
projection collaborator; `word_lut` the embedding primitive. -/
structure Decoder where
  layers : ℕ
  dynamic_decode : Bool
  rnn : StackedLSTM
  word_lut : ℤ → Vec
  generator : Mat → Mat
  dropoutF : Mat → Mat
  hidden_size : ℕ

/-- Index of the maximum entry of a vector (`logit.max(-1)` indices,
first maximal index). -/
def argmaxIdx : Vec → ℕ
  | [] => 0
  | [_] => 0
  | q :: rest =>
    let j := argmaxIdx rest
    if q < rest.getD j 0 then j + 1 else 0

/-- `logit.max(-1)` indices for a batch of logit rows. -/
def argmaxRows (m : Mat) : List ℤ := m.map (fun r => ((argmaxIdx r : ℕ) : ℤ))

/-- The timestep loop of `Decoder.forward` (lines 96-109). `prev` is the
`input_t` Python local carried across iterations: it is (re)bound from the
ground-truth embedding when `not dynamic_decode or i == 0`, and rebound to
the embedding of the argmax token after each step when `dynamic_decode`. -/
def decLoop (d : Decoder) : List Mat → ℕ → Mat → T3 × T3 → List Mat × (T3 × T3)
  | [], _, _, hidden => ([], hidden)
  | e :: rest, i, prev, hidden =>
    let input_t := if d.dynamic_decode = false ∨ i = 0 then e else prev
    let st := d.rnn.forward input_t hidden
    let logit := d.generator (d.dropoutF st.1)
    let nxt := if d.dynamic_decode then lutRow d.word_lut (argmaxRows logit) else input_t
    let r := decLoop d rest (i + 1) nxt st.2
    (logit :: r.1, r.2)

/-- `Decoder.forward` (lines 91-111). The declared arguments
`init_output` and `step` are never read by the body, exactly as in the
source. The initial `prev` is a dummy: the first iteration always
rebinds `input_t` because `i == 0`. -/
def Decoder.forward (d : Decoder) (input : TokMat) (hidden : T3 × T3)
    (init_output : Mat) (step : ℕ) : List Mat × (T3 × T3) :=
  decLoop d (input.map (lutRow d.word_lut)) 0 [] hidden

/-- `class NMTModel` (lines 114-214). Learned parameters are carried as
explicit fields; `expf` is the `torch.exp` primitive; `unk` is
`onmt.Constants.UNK` (the `onmt.Constants` module is not part of this
file; per the spec it is the unknown-token id); `training` is the
`nn.Module` train/eval mode flag. -/
structure NMTModel where
  encoder : Encoder
  decoder : Decoder
  layers : ℕ
  gpus : Bool
  latent_size : ℕ
  feed_gt_prob : ℚ
  dynamic_decode : Bool
  deterministic : Bool
  prelu : Bool
  training : Bool
  encoder_to_mu : LinearL
  encoder_to_nu : LinearL
  nu_to_logvar : LinearL
  latent_to_decoder : LinearL
  prelu_mu : ℚ
  prelu_logvar : ℚ
  prelu_dec : ℚ
  expf : ℚ → ℚ
  unk : ℤ

/-- Lines 141-149 of `NMTModel.encode`, taking the encoder final states
as input: flatten them (raw, as returned by the encoder), then
`mu = encoder_to_mu(flat)`, `nu = ReLU(encoder_to_nu(flat))`,
`logvar = -2 * |nu_to_logvar(nu)|`, with the optional PReLUs applied
last. -/
def NMTModel.bottleneckEncode (m : NMTModel) (enc_hidden : T3 × T3) : Mat × Mat :=
  let flat := encodeFlat enc_hidden.1 enc_hidden.2
  let mu0 := m.encoder_to_mu.app flat
  let nu := matMap (fun q => max q 0) (m.encoder_to_nu.app flat)
  let logvar0 := matMap (fun q => -2 * |q|) (m.nu_to_logvar.app nu)
  (if m.prelu then matMap (preluQ m.prelu_mu) mu0 else mu0,
   if m.prelu then matMap (preluQ m.prelu_logvar) logvar0 else logvar0)

/-- `NMTModel.encode` (lines 137-149): run the encoder, then the latent
bottleneck on its final hidden/cell states. -/
def NMTModel.encode (m : NMTModel) (x : TokMat) : Mat × Mat :=
  m.bottleneckEncode (m.encoder.forward x).1

/-- `NMTModel.reparameterize` (lines 151-158) with the normal draw `eps`
injected: `std = exp(logvar * 0.5)`; returns `eps * std + mu`. -/
def NMTModel.reparameterize (m : NMTModel) (mu logvar eps : Mat) : Mat :=
  let std := matMap m.expf (matMap (fun q => q * (1 / 2)) logvar)
  matAdd2 (matMul2 eps std) mu

/-- Lines 208-211 of `NMTModel.forward`: the latent sampling step —
reparameterize unless the deterministic flag is set, in which case
`z = mu`. -/
def NMTModel.sampleLatent (m : NMTModel) (mu logvar eps : Mat) : Mat :=
  if m.deterministic = false then m.reparameterize mu logvar eps else mu

/-- `NMTModel.make_init_decoder_output` (lines 160-163): a zero tensor of
shape (batch, decoder.hidden_size). -/
def NMTModel.make_init_decoder_output (m : NMTModel) (z : Mat) : Mat :=
  List.replicate z.length (List.replicate m.decoder.hidden_size 0)

/-- `NMTModel.decode` (lines 165-176): map the latent code through
`latent_to_decoder` (plus optional PReLU), `view(layers, z.size(0), -1)`,
`torch.chunk(-, 2, 2)` into the decoder state pair, then run the decoder;
only the logits sequence is returned. -/
def NMTModel.decode (m : NMTModel) (z : Mat) (tgt : TokMat) (step : ℕ) : List Mat :=
  let ds0 := m.latent_to_decoder.app z
  let ds1 := if m.prelu then matMap (preluQ m.prelu_dec) ds0 else ds0
  let states := chunk2 (view3 m.layers z.length ds1)
  let init_output := m.make_init_decoder_output z
  (m.decoder.forward tgt states init_output step).1

/-- `NMTModel._fix_enc_hidden` (lines 178-186): when bidirectional,
merge rows `2l` and `2l+1` (forward/backward of layer `l`) into a single
per-layer row with doubled feature width; otherwise the identity. -/
def NMTModel.fix_enc_hidden (m : NMTModel) (h : T3) : T3 :=
  if m.encoder.num_directions = 2 then
    (List.range (h.length / 2)).map (fun l =>
      List.zipWith (fun a b => a ++ b) (h.getD (2 * l) []) (h.getD (2 * l + 1) []))
  else h

/-- `torch.FloatTensor(r, c).fill_(v)`. -/
def fillMat (r c : ℕ) (v : ℚ) : Mat := List.replicate r (List.replicate c v)

/-- `torch.bernoulli(probs)` with injected uniform draws `u i j ∈ [0,1)`:
entry (i,j) is 1 iff `u i j < probs[i][j]` (so probability 1 always gives
1 and probability 0 always gives 0), already cast to long. -/
def bern (u : ℕ → ℕ → ℚ) (probs : Mat) : TokMat :=
  probs.enum.map (fun p => p.2.enum.map (fun q => if u p.1 q.1 < q.2 then (1 : ℤ) else 0))

/-- Elementwise binary op on integer 2-d tensors with dim-0 broadcasting
(a size-1 dim 0 broadcasts against the other operand); `none` models the
torch runtime shape error for incompatible sizes. -/
def ewBB (f : ℤ → ℤ → ℤ) (a b : TokMat) : Option TokMat :=
  if a.length = b.length then some (List.zipWith (List.zipWith f) a b)
  else if b.length = 1 then some (a.map (fun r => List.zipWith f r (b.headD [])))
  else if a.length = 1 then some (b.map (fun r => List.zipWith f (a.headD []) r))
  else none

/-- `torch.mul(seqs, samples)` on token tensors. -/
def mulBB (a b : TokMat) : Option TokMat := ewBB (· * ·) a b

/-- `m + added` on token tensors. -/
def addBB (a b : TokMat) : Option TokMat := ewBB (· + ·) a b

/-- `NMTModel.replace_by_unk` (lines 188-200) with the bernoulli draws
injected through `u`. Note the branch on `self.gpus`: the kept-probability
tensor has `seq_len - 1` rows on the GPU path but `seq_len - 2` rows on
the CPU path, before a row of ones is prepended; the elementwise
multiply/add then broadcast or fail depending on the resulting shape. -/
def NMTModel.replace_by_unk (m : NMTModel) (u : ℕ → ℕ → ℚ) (seqs : TokMat)
    (prob : ℚ) : Option TokMat :=
  let seq_len := seqs.length
  let batch_size := (seqs.headD []).length
  let probs0 := if m.gpus then fillMat (seq_len - 1) batch_size prob
                else fillMat (seq_len - 2) batch_size prob
  let ones1 := fillMat 1 batch_size 1
  let probs := ones1 ++ probs0
  let samples := bern u probs
  let added := samples.map (fun r => r.map (fun x => (1 - x) * m.unk))
  match mulBB seqs samples with
  | none => none
  | some mres =>
    match addBB mres added with
    | none => none
    | some res => some res

/-- `NMTModel.forward` (lines 202-214): drop the last target token,
optionally apply the scheduled-sampling replacement (training mode with
feed-ground-truth probability < 1), encode, sample the latent code,
decode, and return (logits, mu, logvar). The bernoulli draws `u` and the
normal draw `eps` are the injected randomness. -/
def NMTModel.forward (m : NMTModel) (src tgt : TokMat) (step : ℕ)
    (u : ℕ → ℕ → ℚ) (eps : Mat) : Option (List Mat × Mat × Mat) :=
  let tgt0 := tgt.dropLast
  let tgtR := if m.training = true ∧ m.feed_gt_prob < 1
              then m.replace_by_unk u tgt0 m.feed_gt_prob else some tgt0
  match tgtR with
  | none => none
  | some tgt1 =>
    let mlv := m.encode src
    let z := m.sampleLatent mlv.1 mlv.2 eps
    some (m.decode z tgt1 step, mlv.1, mlv.2)

/-- Structural kernel of `NMTModel.decode` (lines 171-172): the
`view(layers, batch, -1)` / `chunk(-, 2, 2)` unflattening that turns a
(batch, features) tensor back into a decoder state pair. -/
def unflattenState (L : ℕ) (flat : Mat) : T3 × T3 :=
  chunk2 (view3 L flat.length flat)

/-! ## Reference definitions written from the spec's wording

These are the second definitions used by the refinement-style claims:
they follow the spec's sentences, to be compared against the
source-derived definitions above. -/

/-- Reference definition following the spec's wording (§4.4, dynamic
decoding): feed `cur` to the stacked cell, project to logits, and feed
the embedding of the argmax token of those logits to the next step; run
for `n` steps. Only the first input and the step count come from the
target sequence. -/
def specAutoregressive (d : Decoder) : Mat → ℕ → T3 × T3 → List Mat × (T3 × T3)
  | _, 0, hidden => ([], hidden)
  | cur, n + 1, hidden =>
    let st := d.rnn.forward cur hidden
    let logit := d.generator (d.dropoutF st.1)
    let r := specAutoregressive d (lutRow d.word_lut (argmaxRows logit)) n st.2
    (logit :: r.1, r.2)

/-- Reference definition following the spec's wording (§4.4, dynamic
decoding disabled): at every timestep the input is the embedding of the
ground-truth token at that position. -/
def specTeacherForced (d : Decoder) : List Mat → T3 × T3 → List Mat × (T3 × T3)
  | [], hidden => ([], hidden)
  | e :: rest, hidden =>
    let st := d.rnn.forward e hidden
    let logit := d.generator (d.dropoutF st.1)
    let r := specTeacherForced d rest st.2
    (logit :: r.1, r.2)

/-- Reference definition following the spec's wording (§4.3 sample /
§8): `z = μ + exp(0.5·logσ²) ⊙ ε`, elementwise. -/
def specReparam (m : NMTModel) (mu logvar eps : Mat) : Mat :=
  List.zipWith3
    (fun mr lr er =>
      List.zipWith3 (fun mi li ei => mi + m.expf ((1 / 2) * li) * ei) mr lr er)
    mu logvar eps

/-- Elementwise predicate over a 2-d tensor. -/
def matForall (p : ℚ → Prop) (m : Mat) : Prop := ∀ r ∈ m, ∀ q ∈ r, p q

instance (p : ℚ → Prop) [DecidablePred p] (m : Mat) : Decidable (matForall p m) := by
  unfold matForall; infer_instance

/-! ## Concrete instances used by counterexamples and witnesses -/

/-- Embedding primitive used in concrete instances: token id as a
1-dimensional vector. -/
def lutEx : ℤ → Vec := fun t => [(t : ℚ)]

/-- A concrete `nn.LSTMCell` primitive for witnesses. -/
def cellEx : LSTMCellF := fun inp _ => (inp, inp)

/-- A constant `nn.LSTM` primitive returning fixed final states. -/
def rnnConst (h c : T3) : RnnF := fun _ => ((h, c), [])

/-- A concrete unidirectional encoder. -/
def encEx : Encoder :=
  { layers := 1, num_directions := 1, hidden_size := 1, word_lut := lutEx,
    rnn := rnnConst [[[0]]] [[[0]]] }

/-- A concrete one-layer decoder (teacher forcing). -/
def decEx : Decoder :=
  { layers := 1, dynamic_decode := false,
    rnn := { num_layers := 1, dropoutF := id, cells := [cellEx] },
    word_lut := lutEx, generator := id, dropoutF := id, hidden_size := 1 }

/-- A concrete minimal model (1 layer, unidirectional, widths 1,
deterministic, eval mode). -/
def mEx : NMTModel :=
  { encoder := encEx, decoder := decEx, layers := 1, gpus := false,
    latent_size := 1, feed_gt_prob := 1, dynamic_decode := false,
    deterministic := true, prelu := false, training := false,
    encoder_to_mu := { weight := [[0, 0]], bias := [0] },
    encoder_to_nu := { weight := [[0, 0]], bias := [0] },
    nu_to_logvar := { weight := [[0]], bias := [0] },
    latent_to_decoder := { weight := [[0], [0]], bias := [0, 0] },
    prelu_mu := 1 / 4, prelu_logvar := 1 / 4, prelu_dec := 1 / 4,
    expf := id, unk := 1 }

/-- A concrete bidirectional model (1 layer, 2 directions, hidden width 1,
latent width 4, identity `encoder_to_mu`), whose encoder primitive
returns distinguishable final states. -/
def mBi : NMTModel :=
  { mEx with
    encoder := { layers := 1, num_directions := 2, hidden_size := 1,
                 word_lut := lutEx, rnn := rnnConst [[[1]], [[2]]] [[[3]], [[4]]] },
    latent_size := 4,
    encoder_to_mu := { weight := [[1,0,0,0],[0,1,0,0],[0,0,1,0],[0,0,0,1]],
                       bias := [0, 0, 0, 0] } }

/-! ## List helper lemmas -/

theorem getD_range_map {α : Type} (g : ℕ → α) (d : α) {b n : ℕ} (hb : b < n) :
    ((List.range n).map g).getD b d = g b := by
  simp [List.getD_eq_getElem?_getD, List.getElem?_map, List.getElem?_range hb]

theorem range_map_getD {α : Type} (l : List α) (d : α) :
    (List.range l.length).map (fun b => l.getD b d) = l := by
  induction l with
  | nil => simp
  | cons a t ih =>
    rw [List.length_cons, List.range_succ_eq_map, List.map_cons, List.map_map]
    have h1 : ((List.range t.length).map ((fun b => (a :: t).getD b d) ∘ Nat.succ))
        = (List.range t.length).map (fun b => t.getD b d) := by
      refine List.map_congr_left (fun b _ => ?_)
      simp [Function.comp, List.getD_cons_succ]
    rw [h1, ih]
    simp [List.getD_cons_zero]

theorem flatten_len_uniform {α : Type} (m : List (List α)) (k : ℕ)
    (H : ∀ r ∈ m, r.length = k) : m.flatten.length = m.length * k := by
  induction m with
  | nil => simp
  | cons r t ih =>
    rw [List.flatten_cons, List.length_append, List.length_cons,
        H r (List.mem_cons_self r t), ih (fun x hx => H x (List.mem_cons_of_mem r hx))]
    ring

theorem flatten_drop_take {α : Type} (m : List (List α)) (k : ℕ)
    (H : ∀ r ∈ m, r.length = k) :
    ∀ b < m.length, ((m.flatten.drop (b * k)).take k) = m.getD b [] := by
  induction m with
  | nil => intro b hb; simp at hb
  | cons r t ih =>
    intro b hb
    cases b with
    | zero =>
      rw [List.flatten_cons, Nat.zero_mul, List.drop_zero, List.getD_cons_zero,
          ← H r (List.mem_cons_self r t), List.take_left]
    | succ b =>
      have hk : (b + 1) * k = r.length + b * k := by
        rw [H r (List.mem_cons_self r t)]; ring
      rw [List.flatten_cons, List.getD_cons_succ, hk, ← List.drop_drop,
          List.drop_left]
      exact ih (fun x hx => H x (List.mem_cons_of_mem r hx)) b
        (by simpa using Nat.lt_of_succ_lt_succ hb)

theorem zipWith_congr_mem {α β γ : Type} (f g : α → β → γ) :
    ∀ (l₁ : List α) (l₂ : List β),
      (∀ a ∈ l₁, ∀ b ∈ l₂, f a b = g a b) →
      List.zipWith f l₁ l₂ = List.zipWith g l₁ l₂ := by
  intro l₁
  induction l₁ with
  | nil => intro l₂ _; simp
  | cons a t ih =>
    intro l₂ h
    cases l₂ with
    | nil => simp
    | cons b t2 =>
      rw [List.zipWith_cons_cons, List.zipWith_cons_cons,
          h a (List.mem_cons_self a t) b (List.mem_cons_self b t2),
          ih t2 (fun x hx y hy =>
            h x (List.mem_cons_of_mem a hx) y (List.mem_cons_of_mem b hy))]

theorem zipWith_const_left {α β : Type} :
    ∀ (l₁ : List α) (l₂ : List β), l₁.length ≤ l₂.length →
      List.zipWith (fun a _ => a) l₁ l₂ = l₁ := by
  intro l₁
  induction l₁ with
  | nil => intro l₂ _; simp
  | cons a t ih =>
    intro l₂ h
    cases l₂ with
    | nil => simp at h
    | cons b t2 =>
      rw [List.zipWith_cons_cons, ih t2 (by simpa using h)]

theorem zipWith_const_right {α β : Type} :
    ∀ (l₁ : List α) (l₂ : List β), l₂.length ≤ l₁.length →
      List.zipWith (fun _ b => b) l₁ l₂ = l₂ := by
  intro l₁
  induction l₁ with
  | nil =>
    intro l₂ h
    cases l₂ with
    | nil => simp
    | cons b t2 => simp at h
  | cons a t ih =>
    intro l₂ h
    cases l₂ with
    | nil => simp
    | cons b t2 =>
      rw [List.zipWith_cons_cons, ih t2 (by simpa using h)]

theorem getD_zipWith_append {α : Type} (u v : List (List α)) (b : ℕ)
    (hu : b < u.length) (hv : b < v.length) :
    (List.zipWith (· ++ ·) u v).getD b [] = u.getD b [] ++ v.getD b [] := by
  induction u generalizing v b with
  | nil => simp at hu
  | cons a t ih =>
    cases v with
    | nil => simp at hv
    | cons c t2 =>
      cases b with
      | zero => simp [List.getD_cons_zero]
      | succ b =>
        simp only [List.zipWith_cons_cons, List.getD_cons_succ]
        exact ih t2 b (by simpa using hu) (by simpa using hv)

theorem mapGetD_cat2 (h c : T3) (B b : ℕ) (Hh : ∀ r ∈ h, r.length = B)
    (Hc : ∀ r ∈ c, r.length = B) (hb : b < B) :
    (cat2 h c).map (fun mm => mm.getD b []) =
      List.zipWith (fun hr cr => hr.getD b [] ++ cr.getD b []) h c := by
  unfold cat2
  rw [List.map_zipWith]
  refine zipWith_congr_mem _ _ h c (fun hr hmem cr cmem => ?_)
  exact getD_zipWith_append hr cr b (by rw [Hh hr hmem]; exact hb)
    (by rw [Hc cr cmem]; exact hb)

/-- C1 (amended): in the bottleneck of `NMTModel.encode`, batch row `b` of
the flattened tensor is the concatenation, over the raw
(layers*directions)-major state rows `r`, of `hidden[r][b] ++ cell[r][b]`:
the flatten operates directly on the raw encoder states (hidden and cell
interleaved per raw row), with no prior forward/backward merge. -/
theorem c1_amended (h c : T3) (B : ℕ) (Hh : ∀ r ∈ h, r.length = B)
    (Hc : ∀ r ∈ c, r.length = B) (b : ℕ) (hb : b < B) :
    (encodeFlat h c).getD b [] =
      (List.zipWith (fun hr cr => hr.getD b [] ++ cr.getD b []) h c).flatten := by
  cases h with
  | nil => simp [encodeFlat, cat2, transpose01, flattenRows]
  | cons h0 ht =>
    cases c with
    | nil => simp [encodeFlat, cat2, transpose01, flattenRows]
    | cons c0 ct =>
      have hB0 : ((cat2 (h0 :: ht) (c0 :: ct)).headD []).length = B := by
        simp [cat2, List.length_zipWith, Hh h0 (List.mem_cons_self _ _),
              Hc c0 (List.mem_cons_self _ _)]
      unfold encodeFlat flattenRows transpose01
      rw [List.map_map, hB0, getD_range_map _ _ hb]
      simp only [Function.comp]
      rw [mapGetD_cat2 _ _ B b Hh Hc hb]

/-- C1 (counterexample): for the bidirectional model `mBi`, the mean
returned by `NMTModel.encode` differs from the mean the bottleneck would
produce on the merged (`_fix_enc_hidden`-ed) per-layer states: the
source's `encode` never applies the merge, so its flatten consumes the
raw (layers*directions)-major states. -/
theorem c1_counterexample :
    (mBi.encode [[0]]).1 ≠
      (mBi.bottleneckEncode
        (mBi.fix_enc_hidden (mBi.encoder.forward [[0]]).1.1,
         mBi.fix_enc_hidden (mBi.encoder.forward [[0]]).1.2)).1 := by
  norm_num [NMTModel.encode, NMTModel.bottleneckEncode, NMTModel.fix_enc_hidden,
    Encoder.forward, mBi, mEx, encEx, lutEx, rnnConst, lutRow, encodeFlat,
    flattenRows, transpose01, cat2, LinearL.app, LinearL.appV, vdot, matMap,
    List.range_succ]

/-- C1 (witness): the amended layout characterization evaluated at a
concrete bidirectional state (2 raw rows, batch 1, width 1). -/
theorem c1_witness :
    (∀ r ∈ ([[[1]], [[2]]] : T3), r.length = 1) ∧
    (∀ r ∈ ([[[3]], [[4]]] : T3), r.length = 1) ∧ 0 < 1 ∧
    (encodeFlat [[[1]], [[2]]] [[[3]], [[4]]]).getD 0 [] =
      (List.zipWith (fun hr cr => hr.getD 0 [] ++ cr.getD 0 [])
        ([[[1]], [[2]]] : T3) ([[[3]], [[4]]] : T3)).flatten :=
  ⟨by decide, by decide, by decide,
   c1_amended [[[1]], [[2]]] [[[3]], [[4]]] 1 (by decide) (by decide) 0 (by decide)⟩

theorem zipWith_append_len {α : Type} (dim : ℕ) :
    ∀ (hm cm : List (List α)), (∀ r ∈ hm, r.length = dim) →
      (∀ r ∈ cm, r.length = dim) →
      ∀ v ∈ List.zipWith (fun a b => a ++ b) hm cm, v.length = dim + dim := by
  intro hm
  induction hm with
  | nil => intro cm _ _ v hv; simp at hv
  | cons a t ih =>
    intro cm Hh Hc v hv
    cases cm with
    | nil => simp at hv
    | cons b t2 =>
      rw [List.zipWith_cons_cons] at hv
      rcases List.mem_cons.mp hv with h | h
      · subst h
        rw [List.length_append, Hh a (List.mem_cons_self _ _),
            Hc b (List.mem_cons_self _ _)]
      · exact ih t2 (fun x hx => Hh x (List.mem_cons_of_mem _ hx))
          (fun x hx => Hc x (List.mem_cons_of_mem _ hx)) v h

theorem encodeFlat_single (hm cm : Mat) :
    encodeFlat [hm] [cm] = List.zipWith (fun a b => a ++ b) hm cm := by
  conv_lhs => rw [encodeFlat]
  rw [show cat2 [hm] [cm] = [List.zipWith (fun a b => a ++ b) hm cm] from by
    simp [cat2]]
  rw [transpose01, flattenRows, List.map_map]
  simp only [List.headD_cons, List.map_cons, List.map_nil, Function.comp_def,
    List.flatten_cons, List.flatten_nil, List.append_nil]
  exact range_map_getD _ []

theorem view3_one (M : Mat) (k : ℕ) (hk : 0 < M.length)
    (H : ∀ r ∈ M, r.length = k) : view3 1 M.length M = [M] := by
  unfold view3 reshape3
  rw [flatten_len_uniform M k H]
  have hK : M.length * k / (1 * M.length) = k := by
    rw [Nat.one_mul]
    exact Nat.mul_div_cancel_left k hk
  rw [hK]
  simp only [List.range_succ, List.range_zero, List.nil_append, List.map_cons,
    List.map_nil]
  congr 1
  have h3 : ∀ b ∈ List.range M.length,
      ((M.flatten.drop ((0 * M.length + b) * k)).take k) = M.getD b [] := by
    intro b hb
    rw [Nat.zero_mul, Nat.zero_add]
    exact flatten_drop_take M k H b (List.mem_range.mp hb)
  rw [List.map_congr_left h3, range_map_getD]

theorem chunk2_single (hm cm : Mat) (dim : ℕ)
    (hlen : hm.length = cm.length)
    (Hh : ∀ r ∈ hm, r.length = dim) (Hc : ∀ r ∈ cm, r.length = dim) :
    chunk2 [List.zipWith (fun a b => a ++ b) hm cm] = ([hm], [cm]) := by
  have h1 : (List.zipWith (fun a b => a ++ b) hm cm).map
      (fun v => v.take ((v.length + 1) / 2)) = hm := by
    rw [List.map_zipWith]
    rw [zipWith_congr_mem _ (fun a _ => a) hm cm (fun a ha b hb => ?_)]
    · exact zipWith_const_left hm cm (le_of_eq hlen)
    · have hsplit : ((a ++ b).length + 1) / 2 = a.length := by
        rw [List.length_append, Hh a ha, Hc b hb]
        omega
      rw [hsplit, List.take_left]
  have h2 : (List.zipWith (fun a b => a ++ b) hm cm).map
      (fun v => v.drop ((v.length + 1) / 2)) = cm := by
    rw [List.map_zipWith]
    rw [zipWith_congr_mem _ (fun _ b => b) hm cm (fun a ha b hb => ?_)]
    · exact zipWith_const_right hm cm (ge_of_eq hlen)
    · have hsplit : ((a ++ b).length + 1) / 2 = a.length := by
        rw [List.length_append, Hh a ha, Hc b hb]
        omega
      rw [hsplit, List.drop_left]
  unfold chunk2
  simp only [List.map_cons, List.map_nil, h1, h2]

/-- C5 (amended): in the single-layer unidirectional configuration
(layers = 1, directions = 1, any batch and hidden width), the
`view`/`chunk` unflattening of `NMTModel.decode` is the exact structural
inverse of `encode`'s concatenate-transpose-flatten step:
`unflattenState 1 (encodeFlat [hm] [cm]) = ([hm], [cm])`. (For
directions = 2 the shapes do not round-trip — see the counterexample —
and for layers ≥ 2 with batch ≥ 2 the batch-major `view` scrambles
batch and layer entries.) -/
theorem c5_amended (hm cm : Mat) (dim : ℕ)
    (hlen : hm.length = cm.length) (hB : 0 < hm.length)
    (Hh : ∀ r ∈ hm, r.length = dim) (Hc : ∀ r ∈ cm, r.length = dim) :
    unflattenState 1 (encodeFlat [hm] [cm]) = ([hm], [cm]) := by
  rw [encodeFlat_single]
  have hMlen : (List.zipWith (fun a b => a ++ b) hm cm).length = hm.length := by
    rw [List.length_zipWith, hlen, Nat.min_self]
  unfold unflattenState
  rw [view3_one _ (dim + dim) (by rw [hMlen]; exact hB)
      (zipWith_append_len dim hm cm Hh Hc)]
  exact chunk2_single hm cm dim hlen Hh Hc

/-- C5 (counterexample): for a bidirectional final state
(layers*directions = 2 raw rows, batch 1, hidden width 1, so the model's
`layers` field is 1), composing the bottleneck's flatten with the
decode-side unflattening does not recover the state pair: the result
even has different shapes ((1, 1, 2) instead of (2, 1, 1)), and mixes
hidden and cell entries. -/
theorem c5_counterexample :
    unflattenState 1 (encodeFlat [[[1]], [[2]]] [[[3]], [[4]]]) ≠
      (([[[1]], [[2]]], [[[3]], [[4]]]) : T3 × T3) := by
  decide

/-- C5 (witness): the amended round-trip at layers = directions = 1,
batch 2, hidden width 1. -/
theorem c5_witness :
    ([[1], [2]] : Mat).length = ([[3], [4]] : Mat).length ∧
    0 < ([[1], [2]] : Mat).length ∧
    (∀ r ∈ ([[1], [2]] : Mat), r.length = 1) ∧
    (∀ r ∈ ([[3], [4]] : Mat), r.length = 1) ∧
    unflattenState 1 (encodeFlat [[[1], [2]]] [[[3], [4]]]) =
      ([[[1], [2]]], [[[3], [4]]]) :=
  ⟨by decide, by decide, by decide, by decide,
   c5_amended [[1], [2]] [[3], [4]] 1 (by decide) (by decide) (by decide) (by decide)⟩

theorem matMap_matMap (f g : ℚ → ℚ) (m : Mat) :
    matMap f (matMap g m) = matMap (fun q => f (g q)) m := by
  simp [matMap, List.map_map, Function.comp_def]

theorem matForall_matMap (p : ℚ → Prop) (f : ℚ → ℚ) (m : Mat)
    (hp : ∀ q, p (f q)) : matForall p (matMap f m) := by
  intro r hr q hq
  rcases List.mem_map.mp hr with ⟨r0, _, rfl⟩
  rcases List.mem_map.mp hq with ⟨q0, _, rfl⟩
  exact hp q0

/-- A model with the PReLU nonlinearity enabled and a (learned) negative
slope on the log-variance branch, used by the C2 counterexample. -/
def mPre : NMTModel :=
  { mEx with prelu := true, prelu_logvar := -1,
             nu_to_logvar := { weight := [[0]], bias := [1] } }

/-- C2 (amended): every element of the log-variance returned by the
bottleneck's encode step is ≤ 0, for every input state, whenever the
PReLU flag is disabled, or it is enabled with a nonnegative learned
slope (e.g. its 0.25 initialization); with the PReLU enabled the output
on the always-nonpositive `-2·|·|` value is `slope · value`, so the sign
guarantee holds exactly when the learned slope is ≥ 0. -/
theorem c2_amended (m : NMTModel) (hcpair : T3 × T3)
    (hpre : m.prelu = false ∨ 0 ≤ m.prelu_logvar) :
    matForall (fun q => q ≤ 0) (m.bottleneckEncode hcpair).2 := by
  unfold NMTModel.bottleneckEncode
  cases hp : m.prelu with
  | false =>
    simp only [hp, Bool.false_eq_true, if_false]
    refine matForall_matMap _ _ _ (fun q => ?_)
    nlinarith [abs_nonneg q]
  | true =>
    rcases hpre with hpre | hpre
    · rw [hp] at hpre; exact absurd hpre (by simp)
    · simp only [hp, if_true]
      rw [matMap_matMap]
      refine matForall_matMap _ _ _ (fun q => ?_)
      have hv : -2 * |q| ≤ 0 := by nlinarith [abs_nonneg q]
      unfold preluQ
      rw [max_eq_right hv, min_eq_left hv]
      nlinarith

/-- C2 (counterexample): with the PReLU enabled and a negative learned
slope, the bottleneck's encode step can return a positive log-variance
entry: for `mPre` (slope −1, `nu_to_logvar` bias 1) on the zero state,
the log-variance is `[[2]]`. -/
theorem c2_counterexample :
    ¬ matForall (fun q => q ≤ 0) (mPre.bottleneckEncode ([[[0]]], [[[0]]])).2 := by
  norm_num [matForall, NMTModel.bottleneckEncode, mPre, mEx, encodeFlat,
    flattenRows, transpose01, cat2, LinearL.app, LinearL.appV, vdot, matMap,
    preluQ, List.range_succ]

/-- C2 (witness): the amended theorem at the PReLU-disabled model `mEx`
and a concrete state. -/
theorem c2_witness :
    matForall (fun q => q ≤ 0) (mEx.bottleneckEncode ([[[0]]], [[[0]]])).2 :=
  c2_amended mEx ([[[0]]], [[[0]]]) (Or.inl rfl)

theorem vecReparam (f : ℚ → ℚ) :
    ∀ (mr lr er : Vec),
      List.zipWith (· + ·)
        (List.zipWith (· * ·) er ((lr.map (fun q => q * (1 / 2))).map f)) mr =
      List.zipWith3 (fun mi li ei => mi + f ((1 / 2) * li) * ei) mr lr er := by
  intro mr
  induction mr with
  | nil => intro lr er; simp [List.zipWith3]
  | cons m mt ih =>
    intro lr er
    cases lr with
    | nil => simp [List.zipWith3]
    | cons l lt =>
      cases er with
      | nil => simp [List.zipWith3]
      | cons e et =>
        simp only [List.map_cons, List.zipWith_cons_cons, List.zipWith3, ih lt et,
          List.cons.injEq, and_true]
        rw [mul_comm l (1 / 2)]
        ring

theorem reparam_eq_spec (m : NMTModel) :
    ∀ (mu logvar eps : Mat),
      m.reparameterize mu logvar eps = specReparam m mu logvar eps := by
  intro mu
  induction mu with
  | nil =>
    intro logvar eps
    simp [NMTModel.reparameterize, specReparam, matAdd2, matMul2, matMap,
      List.zipWith3]
  | cons mr mt ih =>
    intro logvar eps
    cases logvar with
    | nil =>
      simp [NMTModel.reparameterize, specReparam, matAdd2, matMul2, matMap,
        List.zipWith3]
    | cons lr lt =>
      cases eps with
      | nil =>
        simp [NMTModel.reparameterize, specReparam, matAdd2, matMul2, matMap,
          List.zipWith3]
      | cons er et =>
        have ht := ih lt et
        simp only [NMTModel.reparameterize, specReparam, matAdd2, matMul2, matMap,
          List.map_cons, List.zipWith_cons_cons, List.zipWith3,
          List.cons.injEq] at ht ⊢
        exact ⟨vecReparam m.expf mr lr er, ht⟩

/-- C4: the latent sampling step of `NMTModel.forward` returns `z = μ`
exactly when the deterministic flag is set, and otherwise (with the
injected standard-normal draw `eps`) returns elementwise
`z = μ + exp(0.5·logσ²)·ε`. -/
theorem c4_thm (m : NMTModel) (mu logvar eps : Mat) :
    (m.deterministic = true → m.sampleLatent mu logvar eps = mu) ∧
    (m.deterministic = false →
      m.sampleLatent mu logvar eps = specReparam m mu logvar eps) := by
  constructor
  · intro hdet
    simp [NMTModel.sampleLatent, hdet]
  · intro hdet
    simp only [NMTModel.sampleLatent, hdet, if_true]
    exact reparam_eq_spec m mu logvar eps

/-- C4 (witness): both modes at concrete inputs — the deterministic model
`mEx` returns `μ` unchanged, and the stochastic variant returns the
closed-form expression. -/
theorem c4_witness :
    (NMTModel.sampleLatent mEx [[3]] [[9]] [[5]] = [[3]]) ∧
    (NMTModel.sampleLatent { mEx with deterministic := false } [[3]] [[9]] [[5]] =
      specReparam { mEx with deterministic := false } [[3]] [[9]] [[5]]) :=
  ⟨(c4_thm mEx [[3]] [[9]] [[5]]).1 rfl,
   (c4_thm { mEx with deterministic := false } [[3]] [[9]] [[5]]).2 rfl⟩

theorem decLoop_dyn (d : Decoder) (hd : d.dynamic_decode = true) :
    ∀ (embs : List Mat) (i : ℕ) (cur : Mat) (hidden : T3 × T3), i ≠ 0 →
      decLoop d embs i cur hidden = specAutoregressive d cur embs.length hidden := by
  intro embs
  induction embs with
  | nil => intro i cur hidden _; simp [decLoop, specAutoregressive]
  | cons e rest ih =>
    intro i cur hidden hi
    simp only [decLoop, hd, hi, List.length_cons, specAutoregressive,
      Bool.true_eq_false, false_or, if_false, if_true]
    rw [ih (i + 1) _ _ (Nat.succ_ne_zero i)]

theorem decLoop_teacher (d : Decoder) (hd : d.dynamic_decode = false) :
    ∀ (embs : List Mat) (i : ℕ) (cur : Mat) (hidden : T3 × T3),
      decLoop d embs i cur hidden = specTeacherForced d embs hidden := by
  intro embs
  induction embs with
  | nil => intro i cur hidden; simp [decLoop, specTeacherForced]
  | cons e rest ih =>
    intro i cur hidden
    simp only [decLoop, hd, specTeacherForced, true_or, if_true,
      Bool.false_eq_true, if_false]
    rw [ih (i + 1) _ _]

/-- C6: with dynamic decoding enabled, `Decoder.forward` computes exactly
the autoregressive recursion: the first step consumes the embedding of
the ground-truth token at position 0, and every later step consumes the
embedding of the argmax token of the previous step's logits; only the
head and the length of the target sequence matter, so ground-truth
tokens after the first have no influence. With dynamic decoding
disabled, every step consumes the embedding of the ground-truth token at
its own position. -/
theorem c6_thm (d : Decoder) (tgt : TokMat) (hidden : T3 × T3) (io : Mat)
    (st : ℕ) :
    (d.dynamic_decode = true →
      d.forward tgt hidden io st =
        specAutoregressive d (lutRow d.word_lut (tgt.headD [])) tgt.length hidden) ∧
    (d.dynamic_decode = false →
      d.forward tgt hidden io st =
        specTeacherForced d (tgt.map (lutRow d.word_lut)) hidden) := by
  constructor
  · intro hd
    cases tgt with
    | nil => simp [Decoder.forward, decLoop, specAutoregressive]
    | cons t ts =>
      simp only [Decoder.forward, List.map_cons, List.headD_cons,
        List.length_cons, decLoop, specAutoregressive, hd, or_true, if_true,
        Nat.zero_eq, eq_self_iff_true]
      rw [decLoop_dyn d hd (ts.map (lutRow d.word_lut)) 1 _ _ (Nat.succ_ne_zero 0)]
      simp [List.length_map]
  · intro hd
    simp only [Decoder.forward]
    exact decLoop_teacher d hd _ 0 [] hidden

/-- A concrete decoder with dynamic decoding enabled. -/
def decDyn : Decoder := { decEx with dynamic_decode := true }

/-- C6 (witness): both modes at a concrete decoder and a concrete
two-step target. -/
theorem c6_witness :
    decDyn.forward [[0], [1]] ([[[0]]], [[[0]]]) [[0]] 0 =
      specAutoregressive decDyn
        (lutRow decDyn.word_lut (([[0], [1]] : TokMat).headD []))
        ([[0], [1]] : TokMat).length ([[[0]]], [[[0]]]) ∧
    decEx.forward [[0], [1]] ([[[0]]], [[[0]]]) [[0]] 0 =
      specTeacherForced decEx (([[0], [1]] : TokMat).map (lutRow decEx.word_lut))
        ([[[0]]], [[[0]]]) :=
  ⟨(c6_thm decDyn [[0], [1]] ([[[0]]], [[[0]]]) [[0]] 0).1 rfl,
   (c6_thm decEx [[0], [1]] ([[[0]]], [[[0]]]) [[0]] 0).2 rfl⟩

theorem decLoop_len (d : Decoder) :
    ∀ (embs : List Mat) (i : ℕ) (cur : Mat) (hidden : T3 × T3),
      (decLoop d embs i cur hidden).1.length = embs.length := by
  intro embs
  induction embs with
  | nil => intro i cur hidden; simp [decLoop]
  | cons e rest ih =>
    intro i cur hidden
    simp [decLoop, ih]

theorem decode_len (m : NMTModel) (z : Mat) (tgt : TokMat) (stp : ℕ) :
    (m.decode z tgt stp).length = tgt.length := by
  simp [NMTModel.decode, Decoder.forward, decLoop_len]

theorem bern_len (u : ℕ → ℕ → ℚ) (probs : Mat) :
    (bern u probs).length = probs.length := by
  simp [bern]

theorem ewBB_len (f : ℤ → ℤ → ℤ) (a b : TokMat) (o : TokMat)
    (h : ewBB f a b = some o) :
    o.length = a.length ∨ (a.length = 1 ∧ o.length = b.length) := by
  unfold ewBB at h
  split at h
  · rename_i heq
    injection h with h
    left
    rw [← h, List.length_zipWith, heq, Nat.min_self]
  · split at h
    · injection h with h
      left
      rw [← h, List.length_map]
    · split at h
      · rename_i h1 h2 h3
        injection h with h
        right
        exact ⟨h3, by rw [← h, List.length_map]⟩
      · exact absurd h (by simp)

theorem replace_len (m : NMTModel) (u : ℕ → ℕ → ℚ) (seqs : TokMat) (p : ℚ)
    (out : TokMat) (h : m.replace_by_unk u seqs p = some out) :
    out.length = seqs.length := by
  simp only [NMTModel.replace_by_unk] at h
  split at h
  · exact absurd h (by simp)
  · rename_i mres hm
    split at h
    · exact absurd h (by simp)
    · rename_i res ha
      injection h with h
      subst h
      rw [mulBB] at hm
      rw [addBB] at ha
      have hm' := ewBB_len _ _ _ _ hm
      have ha' := ewBB_len _ _ _ _ ha
      have hsl : ∀ k : ℕ,
          (bern u (fillMat 1 (seqs.headD []).length 1 ++
            fillMat k (seqs.headD []).length p)).length = 1 + k := by
        intro k
        rw [bern_len, List.length_append]
        simp [fillMat]
      have hal : ∀ (s : TokMat),
          (s.map (fun r => r.map (fun x => (1 - x) * m.unk))).length = s.length :=
        fun s => List.length_map _ _
      rw [hal] at ha'
      cases hg : m.gpus with
      | false =>
        rw [hg] at hm' ha'
        simp only [if_false, Bool.false_eq_true] at hm' ha'
        rw [hsl (seqs.length - 2)] at hm' ha'
        omega
      | true =>
        rw [hg] at hm' ha'
        simp only [if_true] at hm' ha'
        rw [hsl (seqs.length - 1)] at hm' ha'
        omega

/-- C7: whenever the top-level forward pass returns, on a target of
length T ≥ 2 it drops the final target token before decoding and the
returned logits sequence has exactly T − 1 timesteps (the decoder loop
runs once per remaining input timestep, with no early stopping). -/
theorem c7_thm (m : NMTModel) (src tgt : TokMat) (stp : ℕ) (u : ℕ → ℕ → ℚ)
    (eps : Mat) (out : List Mat) (mu lv : Mat)
    (hT : 2 ≤ tgt.length)
    (hfw : m.forward src tgt stp u eps = some (out, mu, lv)) :
    out.length = tgt.length - 1 := by
  simp only [NMTModel.forward] at hfw
  split at hfw
  · exact absurd hfw (by simp)
  · rename_i tgt1 heq
    rw [Option.some.injEq, Prod.mk.injEq] at hfw
    obtain ⟨ho, -⟩ := hfw
    subst ho
    rw [decode_len]
    split at heq
    · rw [replace_len m u tgt.dropLast m.feed_gt_prob tgt1 heq,
         List.length_dropLast]
    · injection heq with heq
      rw [← heq, List.length_dropLast]

/-- C7 (witness): a concrete evaluation of the full forward pass on a
length-2 target returns a 1-step logits sequence. -/
theorem c7_witness :
    2 ≤ ([[1], [2]] : TokMat).length ∧
    ([[[1]]] : List Mat).length = ([[1], [2]] : TokMat).length - 1 :=
  ⟨by decide,
   c7_thm mEx [[0]] [[1], [2]] 0 (fun _ _ => 0) [] [[[1]]] [[0]] [[0]] (by decide)
     (by norm_num [NMTModel.forward, NMTModel.encode, NMTModel.bottleneckEncode,
       NMTModel.sampleLatent, NMTModel.decode, NMTModel.make_init_decoder_output,
       Encoder.forward, Decoder.forward, decLoop, StackedLSTM.forward, stackedGo,
       mEx, encEx, decEx, cellEx, rnnConst, lutEx, lutRow, encodeFlat,
       flattenRows, transpose01, cat2, LinearL.app, LinearL.appV, vdot, matMap,
       view3, reshape3, chunk2, List.range_succ])⟩

/-- C3 (code-bug evaluation): with feed-ground-truth probability 0 and
any noise draw, on the CPU branch (`gpus` empty) a length-2 truncated
target is returned unchanged — the non-first position is NOT replaced by
the unknown-token id — and a length-3 target raises a shape error
(`none`); on the GPU branch the same inputs behave exactly as the claim
states (every non-first position becomes the unknown-token id 1, first
row preserved). The cause is the `seq_len - 2` (instead of
`seq_len - 1`) row count of the CPU probability tensor. -/
theorem c3_bug_eval :
    NMTModel.replace_by_unk { mEx with gpus := false } (fun _ _ => 0) [[5], [7]] 0 =
      some [[5], [7]] ∧
    NMTModel.replace_by_unk { mEx with gpus := false } (fun _ _ => 0)
      [[5], [7], [9]] 0 = none ∧
    NMTModel.replace_by_unk { mEx with gpus := true } (fun _ _ => 0) [[5], [7]] 0 =
      some [[5], [1]] ∧
    NMTModel.replace_by_unk { mEx with gpus := true } (fun _ _ => 0)
      [[5], [7], [9]] 0 = some [[5], [1], [1]] := by
  decide

/-- C8: constructing an `Encoder` succeeds exactly when `rnn_size` is
divisible by the number of directions (2 if bidirectional, else 1); the
check happens at construction time, before any forward call. -/
theorem c8_thm (opt : Opt) (lut : ℤ → Vec) (rnnP : RnnF) :
    (Encoder.build opt lut rnnP).isSome = true ↔
      opt.rnn_size % (if opt.brnn then 2 else 1) = 0 := by
  unfold Encoder.build
  split
  · rename_i h
    simp [h]
  · rename_i h
    simp [h]

/-- C10: `Decoder.forward` never reads its `init_output` and `step`
arguments: any two values of each yield identical results. -/
theorem c10_thm (d : Decoder) (input : TokMat) (hidden : T3 × T3)
    (io io2 : Mat) (st st2 : ℕ) :
    d.forward input hidden io st = d.forward input hidden io2 st2 := rfl

/-! ## Store-level model of `NMTModel.forward` (frame property)

To express that `forward` treats the caller's `src`/`tgt` tensors
read-only, the tensors live in an explicit store (one entry per torch
tensor) and the forward pass is replayed against it. Every torch
operation in `forward`'s call path either
* allocates a fresh tensor (`torch.cat`, `torch.bernoulli`, `torch.mul`,
  `torch.add`, all `nn.Linear`/`nn.Embedding`/cell/generator outputs,
  `torch.exp`, `torch.abs`, `torch.stack`), modelled as an append to the
  store with the value computed by the pure model above;
* creates a view without touching storage (`tgt[:-1]`, `transpose`,
  `split`, `squeeze`, `chunk`), modelled as a pure read; or
* writes in place to a tensor allocated in the immediately preceding
  step (`fill_` after `torch.FloatTensor(...)`, `normal_` after
  `torch.FloatTensor(std.size())`, `zero_` after `z.data.new(...)`),
  modelled as a single append of the already-initialized fresh tensor
  (the write hits only the fresh buffer, so the fusion is exact).
No operation writes to a pre-existing store entry, which is what the
frame theorem below verifies. -/

inductive TVal where
  | iMat : TokMat → TVal
  | qMat : Mat → TVal
  | outs : List Mat → TVal
deriving DecidableEq

abbrev Store := List TVal

/-- Allocate a fresh tensor: append it and return its reference. -/
def salloc (s : Store) (v : TVal) : Store × ℕ := (s ++ [v], s.length)

/-- Read an integer tensor from the store. -/
def sreadI (s : Store) (r : ℕ) : TokMat :=
  match s.getD r (TVal.iMat []) with
  | TVal.iMat mm => mm
  | _ => []

/-- Store-level replay of `NMTModel.replace_by_unk` (lines 188-200):
`probs` (fresh + `fill_` on fresh), `ones` (fresh + `fill_` on fresh),
`torch.cat` (fresh), `torch.bernoulli` (fresh), `added` (fresh),
`torch.mul` (fresh), the final add (fresh); a broadcast failure raises
(returns no reference). The stored values are computed by the pure
model. -/
def replaceStore (m : NMTModel) (s : Store) (u : ℕ → ℕ → ℚ) (seqs : TokMat)
    (prob : ℚ) : Store × Option ℕ :=
  let seq_len := seqs.length
  let batch_size := (seqs.headD []).length
  let probs0 := if m.gpus then fillMat (seq_len - 1) batch_size prob
                else fillMat (seq_len - 2) batch_size prob
  let s1 := (salloc s (TVal.qMat probs0)).1
  let ones1 := fillMat 1 batch_size 1
  let s2 := (salloc s1 (TVal.qMat ones1)).1
  let probs := ones1 ++ probs0
  let s3 := (salloc s2 (TVal.qMat probs)).1
  let samples := bern u probs
  let s4 := (salloc s3 (TVal.iMat samples)).1
  let added := samples.map (fun r => r.map (fun x => (1 - x) * m.unk))
  let s5 := (salloc s4 (TVal.iMat added)).1
  match mulBB seqs samples with
  | none => (s5, none)
  | some mres =>
    let s6 := (salloc s5 (TVal.iMat mres)).1
    match addBB mres added with
    | none => (s6, none)
    | some res =>
      ((salloc s6 (TVal.iMat res)).1, some s6.length)

/-- Step 1-2 of the store-level `forward`: slice `tgt[:-1]` (a view) and
optionally run the replacement; on success the replaced tensor is read
back from its fresh store entry. -/
def forwardStoreStep1 (m : NMTModel) (s : Store) (tgt0 : TokMat)
    (u : ℕ → ℕ → ℚ) : Store × Option TokMat :=
  if m.training = true ∧ m.feed_gt_prob < 1 then
    match replaceStore m s u tgt0 m.feed_gt_prob with
    | (s2, none) => (s2, none)
    | (s2, some r) => (s2, some (sreadI s2 r))
  else (s, some tgt0)

/-- Store-level replay of `NMTModel.forward` (lines 202-214): reads
`src` and `tgt`, slices `tgt[:-1]` (view), replays the replacement, then
allocates the encode outputs (μ, logσ²), the sampled latent code, and
the decoder's logits sequence — every sub-call (`encode`,
`sampleLatent`, `decode`) performs only fresh allocations and in-place
writes on fresh buffers, so it is replayed as appends of its results. -/
def forwardStore (m : NMTModel) (s : Store) (srcR tgtR : ℕ) (stp : ℕ)
    (u : ℕ → ℕ → ℚ) (eps : Mat) : Store × Option ℕ :=
  let src := sreadI s srcR
  let tgt0 := (sreadI s tgtR).dropLast
  match forwardStoreStep1 m s tgt0 u with
  | (s2, none) => (s2, none)
  | (s2, some tgt1) =>
    let mlv := m.encode src
    let s3 := (salloc s2 (TVal.qMat mlv.1)).1
    let s4 := (salloc s3 (TVal.qMat mlv.2)).1
    let z := m.sampleLatent mlv.1 mlv.2 eps
    let s5 := (salloc s4 (TVal.qMat z)).1
    let out := m.decode z tgt1 stp
    ((salloc s5 (TVal.outs out)).1, some s5.length)

theorem replaceStore_take (m : NMTModel) (s : Store) (u : ℕ → ℕ → ℚ)
    (seqs : TokMat) (prob : ℚ) :
    (replaceStore m s u seqs prob).1.take s.length = s := by
  simp only [replaceStore, salloc, List.append_assoc, List.singleton_append]
  split
  · exact List.take_left s _
  · split
    · exact List.take_left s _
    · exact List.take_left s _

theorem forwardStoreStep1_take (m : NMTModel) (s : Store) (tgt0 : TokMat)
    (u : ℕ → ℕ → ℚ) :
    (forwardStoreStep1 m s tgt0 u).1.take s.length = s := by
  unfold forwardStoreStep1
  split
  · have ht := replaceStore_take m s u tgt0 m.feed_gt_prob
    rcases hr : replaceStore m s u tgt0 m.feed_gt_prob with ⟨s2, o⟩
    rw [hr] at ht
    cases o with
    | none => exact ht
    | some r => exact ht
  · exact List.take_length s

theorem forwardStore_take (m : NMTModel) (s : Store) (srcR tgtR stp : ℕ)
    (u : ℕ → ℕ → ℚ) (eps : Mat) :
    (forwardStore m s srcR tgtR stp u eps).1.take s.length = s := by
  simp only [forwardStore]
  have ht := forwardStoreStep1_take m s ((sreadI s tgtR).dropLast) u
  rcases hr : forwardStoreStep1 m s ((sreadI s tgtR).dropLast) u with ⟨s2, o⟩
  rw [hr] at ht
  cases o with
  | none => exact ht
  | some tgt1 =>
    have hlen : s.length ≤ s2.length := by
      have h2 := congrArg List.length ht
      simp only [List.length_take] at h2
      omega
    simp only [salloc, List.append_assoc]
    rw [List.take_append_of_le_length hlen, ht]

theorem sreadI_of_take (s s2 : Store) (h : s2.take s.length = s) (r : ℕ)
    (hr : r < s.length) : sreadI s2 r = sreadI s r := by
  unfold sreadI
  have hget : s2.getD r (TVal.iMat []) = s.getD r (TVal.iMat []) := by
    conv_rhs => rw [← h]
    rw [List.getD_eq_getElem?_getD, List.getD_eq_getElem?_getD,
        List.getElem?_take, if_pos hr]
  rw [hget]

/-- C9: the top-level forward pass consumes `src` and `tgt` read-only: in
the store-level replay, the result store extends the input store without
modifying any pre-existing entry (in particular the replacement step
produces a fresh tensor instead of mutating `tgt`), so after the call
`src` and `tgt` hold exactly the token ids they held before. -/
theorem c9_thm (m : NMTModel) (s : Store) (srcR tgtR stp : ℕ)
    (u : ℕ → ℕ → ℚ) (eps : Mat) (hs : srcR < s.length) (ht : tgtR < s.length) :
    (forwardStore m s srcR tgtR stp u eps).1.take s.length = s ∧
    sreadI (forwardStore m s srcR tgtR stp u eps).1 srcR = sreadI s srcR ∧
    sreadI (forwardStore m s srcR tgtR stp u eps).1 tgtR = sreadI s tgtR := by
  have h := forwardStore_take m s srcR tgtR stp u eps
  exact ⟨h, sreadI_of_take s _ h srcR hs, sreadI_of_take s _ h tgtR ht⟩

/-- A concrete two-tensor store holding a source and a target sequence. -/
def s9 : Store := [TVal.iMat [[2], [3]], TVal.iMat [[4], [5], [6]]]

/-- C9 (witness): the frame property at a concrete store and model. -/
theorem c9_witness :
    0 < s9.length ∧ 1 < s9.length ∧
    ((forwardStore mEx s9 0 1 0 (fun _ _ => 0) []).1.take s9.length = s9 ∧
     sreadI (forwardStore mEx s9 0 1 0 (fun _ _ => 0) []).1 0 = sreadI s9 0 ∧
     sreadI (forwardStore mEx s9 0 1 0 (fun _ _ => 0) []).1 1 = sreadI s9 1) :=
  ⟨by decide, by decide,
   c9_thm mEx s9 0 1 0 (fun _ _ => 0) [] (by decide) (by decide)⟩
